import Mathlib

/-!
# Verification of the `const-chunks` crate

Shallow embedding of the three source files of the repository:

* `src/lib.rs`     — `ConstChunks`, its `Iterator::next` fill loop,
  `into_remainder`, `size_hint`, `ExactSizeIterator::len`, the `const_chunks`
  constructor with its `N_GT_ZERO` compile-time assertion, and `drop_slice`;
* `src/panic_guard.rs` — `ChunkPanicGuard` (its `Drop` impl drops the
  initialized prefix `slice[..initialized]`);
* `src/remainder.rs`   — `ConstChunksRemainder`, its `Iterator::next` and its
  `Drop` impl.

The underlying Rust iterator is modelled as a script of pull outcomes: each
call to `Iterator::next` on the source consumes the head of the script and may
yield an item, report exhaustion, or panic (user code aborting abnormally).
A pull counter records every call made on the source, so "the source was
pulled again" is an observable fact of the model.  A slot of the
`[MaybeUninit<T>; N]` array is modelled as `Option T`: `some v` is an
initialized slot holding the live value `v`, `none` is an uninitialized slot.
Dropping (destroying) values is modelled by returning the list of destroyed
values, in order, so "destroys exactly these elements, each exactly once" is a
list equality.
-/

set_option autoImplicit false

universe u

variable {T : Type u}

/-- Outcome of one pull (`Iterator::next`) on the underlying source iterator:
an item, `None` (exhaustion), or a panic raised by user-supplied code. -/
inductive PullResult (T : Type u) where
  | yield (item : T)
  | exhausted
  | panicked
  deriving DecidableEq, Repr

/-- Model of the underlying iterator `I`.  `script` lists the outcomes of all
future pulls, in order; a pull past the end of the script reports exhaustion
(the script of a well-behaved finite iterator over `l` is `l.map yield`, after
which every pull returns `None`).  `pulls` counts how many times the source
has been pulled; it makes every call to the source observable. -/
structure Source (T : Type u) where
  script : List (PullResult T)
  pulls : Nat
  deriving DecidableEq, Repr

/-- One call to `self.inner.next()`. -/
def Source.pull (src : Source T) : PullResult T × Source T :=
  match src.script with
  | [] => (PullResult.exhausted, ⟨[], src.pulls + 1⟩)
  | r :: rs => (r, ⟨rs, src.pulls + 1⟩)

/-- The source corresponding to a well-behaved finite iterator over `l`. -/
def Source.ofList (l : List T) : Source T :=
  ⟨l.map PullResult.yield, 0⟩

/-- Model of `drop_slice` (lib.rs): `assume_init_drop`s every element of the
slice.  The model returns the list of values destroyed, in order; under the
safety contract every slice element is initialized (`some`). -/
def drop_slice (slice : List (Option T)) : List T :=
  slice.reduceOption

/-- Model of `ConstChunksRemainder<N, T>` (remainder.rs).  `remainder_chunk`
is the `[MaybeUninit<T>; N]` array (slot `some v` = initialized with `v`,
`none` = uninitialized); `init_start`/`init_stop` are `init_range.start` and
`init_range.end` (`end` is a Lean keyword). -/
structure ConstChunksRemainder (N : Nat) (T : Type u) where
  remainder_chunk : List (Option T)
  init_start : Nat
  init_stop : Nat
  deriving DecidableEq, Repr

namespace ConstChunksRemainder

variable {N : Nat}

/-- Model of `impl Iterator for ConstChunksRemainder::next`: if the range
`init_start..init_stop` is non-empty, `mem::replace` the slot at `init_start`
with an uninitialized value, `assume_init` the old slot, and advance
`init_range.start`; otherwise return `None`. -/
def next (r : ConstChunksRemainder N T) : Option T × ConstChunksRemainder N T :=
  if r.init_start < r.init_stop then
    (r.remainder_chunk.getD r.init_start none,
     ⟨r.remainder_chunk.set r.init_start none, r.init_start + 1, r.init_stop⟩)
  else
    (none, r)

/-- `k` successive calls to `next`, collecting the yielded items (stopping
early if `next` returns `None`). -/
def consume : Nat → ConstChunksRemainder N T → List T × ConstChunksRemainder N T
  | 0, r => ([], r)
  | k + 1, r =>
    match ConstChunksRemainder.next r with
    | (some v, r') =>
      let rest := consume k r'
      (v :: rest.1, rest.2)
    | (none, r') => ([], r')

/-- The slice `self.remainder_chunk[self.init_range.clone()]` handed to
`drop_slice` by the `Drop` impl. -/
def initSlice (r : ConstChunksRemainder N T) : List (Option T) :=
  (r.remainder_chunk.drop r.init_start).take (r.init_stop - r.init_start)

/-- The live values currently held in the filled range `[init_start, init_stop)`. -/
def filledValues (r : ConstChunksRemainder N T) : List T :=
  r.initSlice.reduceOption

/-- Model of `impl Drop for ConstChunksRemainder`: `drop_slice` over the
`init_range` slice.  Returns the values destroyed, in order. -/
def dropDestroyed (r : ConstChunksRemainder N T) : List T :=
  drop_slice r.initSlice

/-- The safety invariant stated in remainder.rs: the `init_range` is inside
`0..N` and a slice of `init_range` into `remainder_chunk` is fully
initialized. -/
def WF (r : ConstChunksRemainder N T) : Prop :=
  r.remainder_chunk.length = N ∧ r.init_start ≤ r.init_stop ∧ r.init_stop ≤ N ∧
    ∀ o ∈ r.initSlice, o.isSome = true

/-- Collecting the whole remainder iterator into a list. -/
def remToList (r : ConstChunksRemainder N T) : List T :=
  (consume (r.init_stop - r.init_start) r).1

end ConstChunksRemainder

/-- Model of `ConstChunks<N, I>` (lib.rs): the inner iterator and the
optional stored remainder. -/
structure ConstChunks (N : Nat) (T : Type u) where
  inner : Source T
  remainder : Option (ConstChunksRemainder N T)
  deriving DecidableEq, Repr

/-- The `[MaybeUninit<T>; N]` array after the fill loop has initialized
exactly the prefix `placed`: slots `[0, placed.length)` are filled, the rest
are uninitialized. -/
def toSlots (placed : List T) (N : Nat) : List (Option T) :=
  placed.map some ++ List.replicate (N - placed.length) none

/-- Outcome of the fill loop of `ConstChunks::next`. -/
inductive FillOutcome (T : Type u) where
  /-- All requested slots were initialized; the chunk is complete. -/
  | filled (chunk : List T) (src : Source T)
  /-- The source reported `None` mid-fill after initializing `placed`. -/
  | ranOut (placed : List T) (src : Source T)
  /-- A pull panicked while the `ChunkPanicGuard` was live; the guard's
  `Drop` ran during unwinding and destroyed `dropped`. -/
  | panicked (dropped : List T) (src : Source T)
  deriving DecidableEq, Repr

/-- Model of the loop `for i in 1..N` in `ConstChunks::next` together with the
live `ChunkPanicGuard`.  `acc` is the initialized prefix
`guard.slice[..guard.initialized]` (the guard's counter is `acc.length`);
`need` is the number of slots still to fill.  Each iteration pulls the source:
an item is written by `init_next_unchecked`; `None` aborts the fill with the
partial prefix; a panic unwinds through the live guard, whose `Drop` runs
`drop_slice` on `slice[..initialized]`, i.e. destroys exactly `acc`. -/
def fillLoop : Nat → Source T → List T → FillOutcome T
  | 0, src, acc => FillOutcome.filled acc src
  | need + 1, src, acc =>
    match Source.pull src with
    | (PullResult.yield item, src') => fillLoop need src' (acc ++ [item])
    | (PullResult.exhausted, src') => FillOutcome.ranOut acc src'
    | (PullResult.panicked, src') =>
      FillOutcome.panicked (drop_slice (acc.map some)) src'

/-- Result of one call to `ConstChunks::next`: `Some(chunk)`, `None`, or a
panic propagating out of the call (carrying, in the model, the list of values
the panic guard destroyed during unwinding). -/
inductive NextResult (T : Type u) where
  | chunk (c : List T)
  | end_
  | panicked (dropped : List T)
  deriving DecidableEq, Repr

/-- Model of `impl Iterator for ConstChunks::next` (lib.rs, lines 72–123):
pull once; on `None` return `None` at once (the `remainder` field is not
touched); on a panic during this first pull nothing has been placed and no
guard exists, so nothing is destroyed.  Otherwise create the uninitialized
array and the panic guard, place the first item, and run the fill loop.  A
completed fill disarms the guard (`forget`) and yields the chunk; running out
mid-fill disarms the guard and stores
`ConstChunksRemainder { remainder_chunk: array, init_range: 0..i }` where `i`
is the number of items placed; a panic mid-fill propagates after the guard
destroyed the placed prefix. -/
def ConstChunks.next {N : Nat} (s : ConstChunks N T) :
    NextResult T × ConstChunks N T :=
  match Source.pull s.inner with
  | (PullResult.exhausted, src') => (NextResult.end_, ⟨src', s.remainder⟩)
  | (PullResult.panicked, src') => (NextResult.panicked [], ⟨src', s.remainder⟩)
  | (PullResult.yield first_item, src') =>
    match fillLoop (N - 1) src' [first_item] with
    | FillOutcome.filled c src'' => (NextResult.chunk c, ⟨src'', s.remainder⟩)
    | FillOutcome.ranOut placed src'' =>
      (NextResult.end_, ⟨src'', some ⟨toSlots placed N, 0, placed.length⟩⟩)
    | FillOutcome.panicked dropped src'' =>
      (NextResult.panicked dropped, ⟨src'', s.remainder⟩)

/-- Model of `ConstChunks::into_remainder`. -/
def ConstChunks.into_remainder {N : Nat} (s : ConstChunks N T) :
    Option (ConstChunksRemainder N T) :=
  s.remainder

/-- Model of `IteratorConstChunks::const_chunks`.  The Rust constructor
evaluates the associated constant `N_GT_ZERO`, i.e.
`assert!(N > 0, "chunk size must be non-zero")`, at monomorphization time, so
a chunk size of zero is rejected before the returned adaptor can pull
anything; the model renders that contract failure as `none`.  On success the
source is stored untouched (`pulls` unchanged) and `remainder` is `None`. -/
def const_chunks (N : Nat) (src : Source T) : Option (ConstChunks N T) :=
  if 0 < N then some ⟨src, none⟩ else none

/-- Model of `ConstChunks::size_hint` (lib.rs, lines 125–128), as a function
of the bounds reported by the inner iterator. -/
def ConstChunks.size_hint (N : Nat) (inner_lower : Nat)
    (inner_upper : Option Nat) : Nat × Option Nat :=
  (inner_lower / N, inner_upper.map (fun upper => upper / N))

/-- Model of `impl ExactSizeIterator for ConstChunks::len` (lib.rs,
lines 131–135), as a function of the inner iterator's exact length. -/
def ConstChunks.len (N : Nat) (inner_len : Nat) : Nat :=
  inner_len / N

/-- `k` successive calls to `ConstChunks::next`, collecting every result. -/
def nextsList {N : Nat} : Nat → ConstChunks N T → List (NextResult T) × ConstChunks N T
  | 0, s => ([], s)
  | k + 1, s =>
    let r := ConstChunks.next s
    let rest := nextsList k r.2
    (r.1 :: rest.1, rest.2)

/-- The chunks among a list of `next` results, in order. -/
def resultsChunks (rs : List (NextResult T)) : List (List T) :=
  rs.filterMap fun r =>
    match r with
    | NextResult.chunk c => some c
    | _ => none

/-- The first `m` chunks of `l`, each of `N` consecutive elements. -/
def chunksExp (N : Nat) : Nat → List T → List (List T)
  | 0, _ => []
  | m + 1, l => l.take N :: chunksExp N m (l.drop N)

/-- The elements yielded by an optional remainder (none = no elements). -/
def remListOpt {N : Nat} : Option (ConstChunksRemainder N T) → List T
  | none => []
  | some r => r.remToList

/-! ## Basic list facts used throughout -/

theorem drop_slice_map_some (l : List T) : drop_slice (l.map some) = l := by
  induction l with
  | nil => rfl
  | cons x xs ih =>
    simp only [drop_slice, List.map_cons, List.reduceOption_cons_of_some] at *
    exact congrArg (x :: ·) ih

theorem reduceOption_all_some_length (l : List (Option T))
    (h : ∀ o ∈ l, o.isSome = true) : l.reduceOption.length = l.length :=
  List.reduceOption_length_eq_iff.mpr h

/-! ## The fill loop -/

theorem fillLoop_yields (tail : List (PullResult T)) :
    ∀ (need : Nat) (l : List T) (acc : List T) (p : Nat), need ≤ l.length →
      fillLoop need ⟨l.map PullResult.yield ++ tail, p⟩ acc =
        FillOutcome.filled (acc ++ l.take need)
          ⟨(l.drop need).map PullResult.yield ++ tail, p + need⟩ := by
  intro need
  induction need with
  | zero => intro l acc p _; simp [fillLoop]
  | succ n ih =>
    intro l acc p h
    match l with
    | [] => simp at h
    | x :: xs =>
      simp only [List.length_cons, Nat.succ_le_succ_iff] at h
      simp only [fillLoop, List.map_cons, List.cons_append, Source.pull]
      rw [ih xs (acc ++ [x]) (p + 1) h]
      simp [List.append_assoc]
      omega

theorem fillLoop_ranOut :
    ∀ (l : List T) (need : Nat) (acc : List T) (p : Nat), l.length < need →
      fillLoop need ⟨l.map PullResult.yield, p⟩ acc =
        FillOutcome.ranOut (acc ++ l) ⟨[], p + l.length + 1⟩ := by
  intro l
  induction l with
  | nil =>
    intro need acc p h
    match need, h with
    | n + 1, _ => simp [fillLoop, Source.pull]
  | cons x xs ih =>
    intro need acc p h
    match need, h with
    | n + 1, h =>
      simp only [List.length_cons] at h
      simp only [fillLoop, List.map_cons, Source.pull]
      rw [ih n (acc ++ [x]) (p + 1) (by omega)]
      simp [List.append_assoc]
      omega

theorem fillLoop_panicked (rest : List (PullResult T)) :
    ∀ (vs : List T) (need : Nat) (acc : List T) (p : Nat), vs.length < need →
      fillLoop need ⟨vs.map PullResult.yield ++ PullResult.panicked :: rest, p⟩ acc =
        FillOutcome.panicked (acc ++ vs) ⟨rest, p + vs.length + 1⟩ := by
  intro vs
  induction vs with
  | nil =>
    intro need acc p h
    match need, h with
    | n + 1, _ =>
      simp [fillLoop, Source.pull, drop_slice_map_some]
  | cons x xs ih =>
    intro need acc p h
    match need, h with
    | n + 1, h =>
      simp only [List.length_cons] at h
      simp only [fillLoop, List.map_cons, List.cons_append, Source.pull]
      rw [ih n (acc ++ [x]) (p + 1) (by omega)]
      simp [List.append_assoc]
      omega

/-! ## One call to `ConstChunks::next` -/

theorem next_chunk {N : Nat} (l : List T) (tail : List (PullResult T)) (p : Nat)
    (rem : Option (ConstChunksRemainder N T)) (hN : 0 < N) (hl : N ≤ l.length) :
    ConstChunks.next (⟨⟨l.map PullResult.yield ++ tail, p⟩, rem⟩ : ConstChunks N T) =
      (NextResult.chunk (l.take N),
       ⟨⟨(l.drop N).map PullResult.yield ++ tail, p + N⟩, rem⟩) := by
  match l with
  | [] => simp only [List.length_nil, Nat.le_zero] at hl; omega
  | x :: xs =>
    simp only [ConstChunks.next, List.map_cons, List.cons_append, Source.pull]
    rw [fillLoop_yields tail (N - 1) xs [x] (p + 1)
      (by simp only [List.length_cons] at hl; omega)]
    simp only
    have h1 : (x :: xs).take N = x :: xs.take (N - 1) := by
      match N, hN with
      | n + 1, _ => simp
    have h2 : (x :: xs).drop N = xs.drop (N - 1) := by
      match N, hN with
      | n + 1, _ => simp
    rw [h1, h2]
    have h3 : p + 1 + (N - 1) = p + N := by omega
    rw [h3]
    rfl

theorem next_empty {N : Nat} (p : Nat) (rem : Option (ConstChunksRemainder N T)) :
    ConstChunks.next (⟨⟨[], p⟩, rem⟩ : ConstChunks N T) =
      (NextResult.end_, ⟨⟨[], p + 1⟩, rem⟩) := by
  simp [ConstChunks.next, Source.pull]

theorem next_ranOut {N : Nat} (l : List T) (p : Nat)
    (rem : Option (ConstChunksRemainder N T)) (h0 : 0 < l.length) (hl : l.length < N) :
    ConstChunks.next (⟨⟨l.map PullResult.yield, p⟩, rem⟩ : ConstChunks N T) =
      (NextResult.end_,
       ⟨⟨[], p + l.length + 1⟩, some ⟨toSlots l N, 0, l.length⟩⟩) := by
  match l with
  | [] => simp at h0
  | x :: xs =>
    simp only [ConstChunks.next, List.map_cons, Source.pull]
    rw [fillLoop_ranOut xs (N - 1) [x] (p + 1)
      (by simp only [List.length_cons] at hl; omega)]
    simp only [List.singleton_append, List.length_cons]
    have h3 : p + 1 + xs.length + 1 = p + (xs.length + 1) + 1 := by omega
    rw [h3]

theorem next_panicked {N : Nat} (vs : List T) (rest : List (PullResult T)) (p : Nat)
    (rem : Option (ConstChunksRemainder N T)) (hv : vs.length < N) :
    ConstChunks.next
        (⟨⟨vs.map PullResult.yield ++ PullResult.panicked :: rest, p⟩, rem⟩ :
          ConstChunks N T) =
      (NextResult.panicked vs, ⟨⟨rest, p + vs.length + 1⟩, rem⟩) := by
  match vs with
  | [] =>
    simp [ConstChunks.next, Source.pull]
  | x :: xs =>
    simp only [ConstChunks.next, List.map_cons, List.cons_append, Source.pull]
    rw [fillLoop_panicked rest xs (N - 1) [x] (p + 1)
      (by simp only [List.length_cons] at hv; omega)]
    simp only [List.singleton_append, List.length_cons]
    have h3 : p + 1 + xs.length + 1 = p + (xs.length + 1) + 1 := by omega
    rw [h3]

/-! ## Runs of `ConstChunks::next` -/

theorem nextsList_add {N : Nat} (a b : Nat) (s : ConstChunks N T) :
    nextsList (a + b) s =
      ((nextsList a s).1 ++ (nextsList b (nextsList a s).2).1,
       (nextsList b (nextsList a s).2).2) := by
  induction a generalizing s with
  | zero => simp [nextsList]
  | succ n ih =>
    have h : n + 1 + b = (n + b) + 1 := by omega
    rw [h]
    simp only [nextsList]
    rw [ih]
    simp

theorem chunksExp_take {N : Nat} :
    ∀ (m : Nat) (l : List T), chunksExp N m (l.take (N * m)) = chunksExp N m l := by
  intro m
  induction m with
  | zero => intro l; rfl
  | succ n ih =>
    intro l
    simp only [chunksExp]
    rw [List.take_take, List.drop_take]
    have h1 : min N (N * (n + 1)) = N := by
      have : N * 1 <= N * (n + 1) := Nat.mul_le_mul_left N (by omega)
      rw [Nat.mul_one] at this
      omega
    have h2 : N * (n + 1) - N = N * n := by rw [Nat.mul_succ]; omega
    rw [h1, h2, ih]

theorem chunksExp_length {N : Nat} :
    ∀ (m : Nat) (l : List T), (chunksExp N m l).length = m := by
  intro m
  induction m with
  | zero => intro l; rfl
  | succ n ih => intro l; simp [chunksExp, ih]

theorem chunksExp_mem_length {N : Nat} :
    ∀ (m : Nat) (l : List T), N * m ≤ l.length →
      ∀ c ∈ chunksExp N m l, c.length = N := by
  intro m
  induction m with
  | zero => intro l _ c hc; simp [chunksExp] at hc
  | succ n ih =>
    intro l h c hc
    rw [Nat.mul_succ] at h
    have hN : N ≤ l.length := by omega
    simp only [chunksExp, List.mem_cons] at hc
    rcases hc with hc | hc
    · rw [hc]; rw [List.length_take]; omega
    · exact ih (l.drop N) (by rw [List.length_drop]; omega) c hc

theorem chunksExp_flatten {N : Nat} :
    ∀ (m : Nat) (l : List T), N * m ≤ l.length →
      (chunksExp N m l).flatten = l.take (N * m) := by
  intro m
  induction m with
  | zero => intro l _; simp [chunksExp]
  | succ n ih =>
    intro l h
    rw [Nat.mul_succ] at h
    simp only [chunksExp, List.flatten_cons]
    rw [ih (l.drop N) (by rw [List.length_drop]; omega)]
    rw [← List.take_add]
    congr 1
    rw [Nat.mul_succ]
    omega

theorem run_chunks {N : Nat} (hN : 0 < N) :
    ∀ (m : Nat) (l : List T) (tail : List (PullResult T)) (p : Nat)
      (rem : Option (ConstChunksRemainder N T)), l.length = N * m →
      nextsList m (⟨⟨l.map PullResult.yield ++ tail, p⟩, rem⟩ : ConstChunks N T) =
        ((chunksExp N m l).map NextResult.chunk, ⟨⟨tail, p + N * m⟩, rem⟩) := by
  intro m
  induction m with
  | zero =>
    intro l tail p rem h
    rw [Nat.mul_zero] at h
    rw [List.eq_nil_of_length_eq_zero h]
    simp [nextsList, chunksExp]
  | succ n ih =>
    intro l tail p rem h
    have hl : N ≤ l.length := by rw [h, Nat.mul_succ]; omega
    simp only [nextsList]
    rw [next_chunk l tail p rem hN hl]
    simp only
    rw [ih (l.drop N) tail (p + N) rem
      (by rw [List.length_drop, h, Nat.mul_succ]; omega)]
    simp only [chunksExp, List.map_cons]
    have h3 : p + N + N * n = p + N * (n + 1) := by rw [Nat.mul_succ]; omega
    rw [h3]

/-- Full run of a producer over a well-behaved finite source of length `L`,
with fuel `L / N + 1`: it yields the `L / N` full chunks in order, then
reports `None`; the final state has consumed the whole script (the source was
pulled `L + 1` times in total) and stores a remainder exactly when
`L % N ≠ 0`. -/
theorem run_spec {N : Nat} (hN : 0 < N) (l : List T) (p : Nat) :
    nextsList (l.length / N + 1)
        (⟨⟨l.map PullResult.yield, p⟩, none⟩ : ConstChunks N T) =
      ((chunksExp N (l.length / N) l).map NextResult.chunk ++ [NextResult.end_],
       ⟨⟨[], p + l.length + 1⟩,
        if l.length % N = 0 then none
        else some ⟨toSlots (l.drop (N * (l.length / N))) N, 0, l.length % N⟩⟩) := by
  have hdm : N * (l.length / N) + l.length % N = l.length := Nat.div_add_mod l.length N
  have hmul : N * (l.length / N) ≤ l.length := by omega
  have hsplit : l.map PullResult.yield =
      (l.take (N * (l.length / N))).map PullResult.yield ++
        (l.drop (N * (l.length / N))).map PullResult.yield := by
    rw [← List.map_append, List.take_append_drop]
  have hlen1 : (l.take (N * (l.length / N))).length = N * (l.length / N) :=
    List.length_take_of_le hmul
  have hlen2 : (l.drop (N * (l.length / N))).length = l.length % N := by
    rw [List.length_drop]; omega
  rw [nextsList_add]
  rw [hsplit, run_chunks hN (l.length / N) (l.take (N * (l.length / N))) _ p none hlen1]
  simp only
  rw [chunksExp_take]
  match hcase : l.drop (N * (l.length / N)), hlen2 with
  | [], hlen2 =>
    have hz : l.length % N = 0 := by rw [← hlen2]; rfl
    simp only [hz, if_pos rfl, List.map_nil, List.nil_append]
    simp only [nextsList, next_empty]
    have : p + N * (l.length / N) + 1 = p + l.length + 1 := by omega
    rw [this]
    simp
  | x :: xs, hlen2 =>
    have hnz : l.length % N ≠ 0 := by
      rw [← hlen2]; simp
    have hmlt : l.length % N < N := Nat.mod_lt _ hN
    simp only [hnz, if_neg hnz]
    simp only [nextsList]
    rw [next_ranOut (x :: xs) _ none (by simp) (by rw [hlen2] at *; omega)]
    simp only
    have hp : p + N * (l.length / N) + (x :: xs).length + 1 = p + l.length + 1 := by
      rw [hlen2]; omega
    rw [hp, hlen2]
    simp

/-! ## The remainder iterator -/

namespace ConstChunksRemainder

variable {N : Nat}

theorem initSlice_cons (r : ConstChunksRemainder N T) (hWF : r.WF)
    (h : r.init_start < r.init_stop) :
    r.initSlice =
      r.remainder_chunk.getD r.init_start none ::
        initSlice (⟨r.remainder_chunk.set r.init_start none,
          r.init_start + 1, r.init_stop⟩ : ConstChunksRemainder N T) := by
  obtain ⟨hlen, _, hstop, _⟩ := hWF
  have hlt : r.init_start < r.remainder_chunk.length := by omega
  have hdrop : r.remainder_chunk.drop r.init_start =
      r.remainder_chunk[r.init_start] :: r.remainder_chunk.drop (r.init_start + 1) :=
    List.drop_eq_getElem_cons hlt
  have hgetD : r.remainder_chunk.getD r.init_start none =
      r.remainder_chunk[r.init_start] := List.getD_eq_getElem _ _ hlt
  have hsub : r.init_stop - r.init_start = (r.init_stop - (r.init_start + 1)) + 1 := by
    omega
  simp only [initSlice]
  rw [hdrop, hsub, List.take_succ_cons, hgetD]
  rw [List.drop_set_of_lt none r.remainder_chunk (Nat.lt_succ_self _)]

/-- One step of the remainder iterator on a well-formed, non-empty remainder:
the value at `init_start` is moved out (its slot becomes uninitialized),
`init_range.start` advances by one, well-formedness is preserved and the
filled values lose exactly their head. -/
theorem next_step (r : ConstChunksRemainder N T) (hWF : r.WF)
    (h : r.init_start < r.init_stop) :
    ∃ v, r.remainder_chunk.getD r.init_start none = some v ∧
      next r = (some v,
        ⟨r.remainder_chunk.set r.init_start none, r.init_start + 1, r.init_stop⟩) ∧
      WF (⟨r.remainder_chunk.set r.init_start none, r.init_start + 1,
        r.init_stop⟩ : ConstChunksRemainder N T) ∧
      filledValues r = v ::
        filledValues (⟨r.remainder_chunk.set r.init_start none, r.init_start + 1,
          r.init_stop⟩ : ConstChunksRemainder N T) := by
  have hcons := initSlice_cons r hWF h
  obtain ⟨hlen, _, hstop, hsome⟩ := hWF
  have hhead : (r.remainder_chunk.getD r.init_start none).isSome = true := by
    apply hsome
    rw [hcons]
    exact List.mem_cons_self _ _
  obtain ⟨v, hv⟩ := Option.isSome_iff_exists.mp hhead
  refine ⟨v, hv, ?_, ?_, ?_⟩
  · simp only [next, if_pos h, hv]
  · refine ⟨by rw [List.length_set]; exact hlen,
      by show r.init_start + 1 ≤ r.init_stop; omega, hstop, ?_⟩
    intro o ho
    apply hsome
    rw [hcons]
    exact List.mem_cons_of_mem _ ho
  · simp only [filledValues]
    rw [hcons, hv, List.reduceOption_cons_of_some]

theorem next_stuck (r : ConstChunksRemainder N T) (h : ¬ r.init_start < r.init_stop) :
    next r = (none, r) := by
  simp [next, h]

theorem consume_stuck (r : ConstChunksRemainder N T)
    (h : ¬ r.init_start < r.init_stop) :
    ∀ k, consume k r = ([], r) := by
  intro k
  match k with
  | 0 => rfl
  | k + 1 => simp [consume, next_stuck r h]

theorem initSlice_empty (r : ConstChunksRemainder N T)
    (h : ¬ r.init_start < r.init_stop) : r.initSlice = [] := by
  simp only [initSlice]
  have : r.init_stop - r.init_start = 0 := by omega
  rw [this, List.take_zero]

/-- Master lemma for runs of the remainder iterator: after `k` calls to
`next` on a well-formed remainder, the yielded items are the first `k` filled
values, the state is still well-formed, `init_range.end` is unchanged,
`init_range.start` has advanced by `k` (clamped at `init_range.end`), and the
values still held are the remaining filled values. -/
theorem consume_master :
    ∀ (k : Nat) (r : ConstChunksRemainder N T), r.WF →
      (consume k r).1 = (filledValues r).take k ∧
      WF (consume k r).2 ∧
      filledValues (consume k r).2 = (filledValues r).drop k ∧
      (consume k r).2.init_stop = r.init_stop ∧
      (consume k r).2.init_start = min (r.init_start + k) r.init_stop := by
  intro k
  induction k with
  | zero =>
    intro r hWF
    refine ⟨rfl, hWF, rfl, rfl, ?_⟩
    simp only [consume]
    have := hWF.2.1
    omega
  | succ n ih =>
    intro r hWF
    by_cases h : r.init_start < r.init_stop
    · obtain ⟨v, hv, hnext, hWF', hfv⟩ := next_step r hWF h
      have hih := ih _ hWF'
      simp only [consume, hnext]
      refine ⟨?_, hih.2.1, ?_, ?_, ?_⟩
      · rw [hfv, List.take_succ_cons, hih.1]
      · rw [hfv, List.drop_succ_cons, hih.2.2.1]
      · exact hih.2.2.2.1
      · rw [hih.2.2.2.2]
        simp only
        omega
    · rw [consume_stuck r h (n + 1)]
      have hfv : filledValues r = [] := by
        simp [filledValues, initSlice_empty r h]
      refine ⟨by rw [hfv]; rfl, hWF, by rw [hfv]; rfl, rfl, ?_⟩
      show r.init_start = min (r.init_start + (n + 1)) r.init_stop
      have := hWF.2.1
      omega

theorem filledValues_length (r : ConstChunksRemainder N T) (hWF : r.WF) :
    (filledValues r).length = r.init_stop - r.init_start := by
  obtain ⟨hlen, hse, hstop, hsome⟩ := hWF
  have h1 : (filledValues r).length = r.initSlice.length :=
    reduceOption_all_some_length _ hsome
  rw [h1]
  simp only [initSlice, List.length_take, List.length_drop]
  omega

/-- Consuming a well-formed remainder to the end yields exactly its filled
values, after which `next` returns `None` (and the iterator never restarts). -/
theorem consume_all (r : ConstChunksRemainder N T) (hWF : r.WF) :
    remToList r = filledValues r ∧
    (consume (r.init_stop - r.init_start) r).2.init_start =
      (consume (r.init_stop - r.init_start) r).2.init_stop ∧
    ∀ k, consume k (consume (r.init_stop - r.init_start) r).2 =
      ([], (consume (r.init_stop - r.init_start) r).2) := by
  have h := consume_master (r.init_stop - r.init_start) r hWF
  have hse := hWF.2.1
  have hstart : (consume (r.init_stop - r.init_start) r).2.init_start =
      (consume (r.init_stop - r.init_start) r).2.init_stop := by
    rw [h.2.2.2.2, h.2.2.2.1]
    omega
  refine ⟨?_, hstart, ?_⟩
  · rw [remToList, h.1]
    apply List.take_of_length_le
    rw [filledValues_length r hWF]
  · exact consume_stuck _ (by omega)

/-- Well-formedness and filled values of the remainder stored by the
producer: the array holds `placed` in its leading slots. -/
theorem fresh_WF (placed : List T) (h : placed.length ≤ N) :
    WF (⟨toSlots placed N, 0, placed.length⟩ : ConstChunksRemainder N T) ∧
    filledValues (⟨toSlots placed N, 0, placed.length⟩ : ConstChunksRemainder N T) =
      placed := by
  have hslice : initSlice (⟨toSlots placed N, 0, placed.length⟩ :
      ConstChunksRemainder N T) = placed.map some := by
    simp only [initSlice, toSlots, List.drop_zero, Nat.sub_zero]
    have : placed.length = (placed.map some).length := (List.length_map _ _).symm
    rw [this, List.take_left]
  refine ⟨⟨?_, Nat.zero_le _, h, ?_⟩, ?_⟩
  · simp only [toSlots, List.length_append, List.length_map, List.length_replicate]
    omega
  · rw [hslice]
    intro o ho
    obtain ⟨a, _, rfl⟩ := List.mem_map.mp ho
    rfl
  · simp only [filledValues]
    rw [hslice]
    exact drop_slice_map_some placed

end ConstChunksRemainder

/-! ## Claim theorems -/

/-- Claim C1: if user-supplied code panics while the producer is filling the
k-th element of an in-progress chunk (1 ≤ k ≤ N; here `k = vs.length + 1`,
the `vs` being the `k − 1` elements already placed), the panic guard's cleanup
destroys exactly those `k − 1` elements, each exactly once and in order
(`NextResult.panicked vs` — for `k = 1` nothing is destroyed, the guard not
yet existing), every chunk yielded by the earlier calls is handed to the
caller intact (the run before the panic yields exactly the chunks of `full`),
and the panic propagates onward unchanged (the call's outcome is the panic
itself, not a value). -/
theorem next_panic_drops_exactly_placed {N : Nat} (m : Nat) (full vs : List T)
    (rest : List (PullResult T)) (p : Nat) (hN : 0 < N)
    (hfull : full.length = N * m) (hvs : vs.length < N) :
    ∃ s1 : ConstChunks N T,
      nextsList m
          (⟨⟨full.map PullResult.yield ++
              (vs.map PullResult.yield ++ PullResult.panicked :: rest), p⟩,
            none⟩ : ConstChunks N T) =
        ((chunksExp N m full).map NextResult.chunk, s1) ∧
      (ConstChunks.next s1).1 = NextResult.panicked vs := by
  refine ⟨⟨⟨vs.map PullResult.yield ++ PullResult.panicked :: rest, p + N * m⟩, none⟩,
    run_chunks hN m full _ p none hfull, ?_⟩
  rw [next_panicked vs rest (p + N * m) none hvs]

/-- Witness for C1: input `[10, 20]` then `30` then a panic, with `N = 2`:
the first call yields the chunk `[10, 20]`; the panicking second call destroys
exactly `[30]`. -/
theorem next_panic_drops_exactly_placed_witness :
    0 < 2 ∧ ([10, 20] : List Nat).length = 2 * 1 ∧ ([30] : List Nat).length < 2 ∧
    ∃ s1 : ConstChunks 2 Nat,
      nextsList 1
          (⟨⟨([10, 20] : List Nat).map PullResult.yield ++
              (([30] : List Nat).map PullResult.yield ++
                PullResult.panicked :: []), 0⟩, none⟩ : ConstChunks 2 Nat) =
        ((chunksExp 2 1 [10, 20]).map NextResult.chunk, s1) ∧
      (ConstChunks.next s1).1 = NextResult.panicked [30] :=
  ⟨by decide, by decide, by decide,
    next_panic_drops_exactly_placed 1 [10, 20] [30] [] 0 (by decide) (by decide)
      (by decide)⟩

/-- Claim C8: constructing the adaptor with chunk size `N = 0` is rejected at
construction (the `N_GT_ZERO` const assertion, modelled as the constructor
returning `none` rather than an adaptor), for every input source — including
an empty one — and before any element is pulled: a successful construction
returns the source untouched (same script, same pull count) with no remainder,
so no element has been pulled at construction time for any `N`. -/
theorem const_chunks_zero_rejected (src : Source T) :
    const_chunks 0 src = none ∧
    ∀ N : Nat, 0 < N → const_chunks N src = some ⟨src, none⟩ := by
  constructor
  · simp [const_chunks]
  · intro N h
    simp [const_chunks, h]

/-- Witness for C8 at the empty source and `N = 3`. -/
theorem const_chunks_zero_rejected_witness :
    const_chunks 0 (⟨[], 0⟩ : Source Nat) = none ∧
    (0 < 3 ∧ const_chunks 3 (⟨[], 0⟩ : Source Nat) = some ⟨⟨[], 0⟩, none⟩) :=
  ⟨(const_chunks_zero_rejected _).1,
    by decide, (const_chunks_zero_rejected _).2 3 (by decide)⟩

/-- Claim C10: once the producer has stored a leftover, any further call to
`next()` whose pull on the source yields nothing returns `None` and leaves the
stored `remainder` field unchanged, so a later `into_remainder` still returns
that same leftover with all its unclaimed elements intact. -/
theorem next_exhausted_preserves_remainder {N : Nat} (s : ConstChunks N T)
    (r : ConstChunksRemainder N T) (hrem : s.remainder = some r)
    (hpull : (Source.pull s.inner).1 = PullResult.exhausted) :
    (ConstChunks.next s).1 = NextResult.end_ ∧
    (ConstChunks.next s).2.remainder = some r ∧
    ConstChunks.into_remainder (ConstChunks.next s).2 = some r := by
  obtain ⟨⟨script, p⟩, rem⟩ := s
  match script, hpull with
  | [], _ =>
    simp only [ConstChunks.next, Source.pull, ConstChunks.into_remainder]
    exact ⟨trivial, hrem, hrem⟩
  | PullResult.exhausted :: rs, _ =>
    simp only [ConstChunks.next, Source.pull, ConstChunks.into_remainder]
    exact ⟨trivial, hrem, hrem⟩
  | PullResult.yield t :: rs, hpull => simp [Source.pull] at hpull
  | PullResult.panicked :: rs, hpull => simp [Source.pull] at hpull

/-- Witness for C10: a producer holding the leftover `[7]` with an exhausted
source still reports `None` and keeps the leftover. -/
theorem next_exhausted_preserves_remainder_witness :
    ((⟨⟨[], 5⟩, some ⟨[some 7, none], 0, 1⟩⟩ : ConstChunks 2 Nat).remainder =
        some ⟨[some 7, none], 0, 1⟩ ∧
      (Source.pull (⟨⟨[], 5⟩, some ⟨[some 7, none], 0, 1⟩⟩ :
        ConstChunks 2 Nat).inner).1 = PullResult.exhausted) ∧
    (ConstChunks.next (⟨⟨[], 5⟩, some ⟨[some 7, none], 0, 1⟩⟩ :
        ConstChunks 2 Nat)).1 = NextResult.end_ ∧
    (ConstChunks.next (⟨⟨[], 5⟩, some ⟨[some 7, none], 0, 1⟩⟩ :
        ConstChunks 2 Nat)).2.remainder = some ⟨[some 7, none], 0, 1⟩ ∧
    ConstChunks.into_remainder
        (ConstChunks.next (⟨⟨[], 5⟩, some ⟨[some 7, none], 0, 1⟩⟩ :
          ConstChunks 2 Nat)).2 = some ⟨[some 7, none], 0, 1⟩ :=
  ⟨⟨rfl, rfl⟩, next_exhausted_preserves_remainder _ _ rfl rfl⟩

theorem resultsChunks_chunks_append_end (cs : List (List T)) :
    resultsChunks (cs.map NextResult.chunk ++ [NextResult.end_]) = cs := by
  induction cs with
  | nil => rfl
  | cons c cst ih =>
    simp only [List.map_cons, List.cons_append, resultsChunks, List.filterMap_cons]
    simp only [resultsChunks] at ih
    rw [ih]

/-- Claim C2: for every chunk size `N > 0` and every finite input of length `L`,
the producer yields exactly `L / N` chunks, each of exactly `N` elements, in
input order (their concatenation is the length-`N * (L / N)` prefix of the
input), followed by `None`; and the leftover, once claimed via
`into_remainder`, yields exactly the final `L % N` input elements in input
order, then `None` forever. -/
theorem chunks_yield_spec {N : Nat} (l : List T) (hN : 0 < N) :
    ∃ (cs : List (List T)) (s1 : ConstChunks N T),
      nextsList (l.length / N + 1) (⟨Source.ofList l, none⟩ : ConstChunks N T) =
        (cs.map NextResult.chunk ++ [NextResult.end_], s1) ∧
      cs.length = l.length / N ∧
      (∀ c ∈ cs, c.length = N) ∧
      cs.flatten = l.take (N * (l.length / N)) ∧
      remListOpt (ConstChunks.into_remainder s1) = l.drop (N * (l.length / N)) ∧
      ∀ r, ConstChunks.into_remainder s1 = some r →
        r.remToList = l.drop (N * (l.length / N)) ∧
        ∀ k, ConstChunksRemainder.consume k
            (ConstChunksRemainder.consume (r.init_stop - r.init_start) r).2 =
          ([], (ConstChunksRemainder.consume (r.init_stop - r.init_start) r).2) := by
  have hdm := Nat.div_add_mod l.length N
  have hmul : N * (l.length / N) ≤ l.length := by omega
  have hrun := run_spec hN l 0
  by_cases hz : l.length % N = 0
  · rw [if_pos hz] at hrun
    refine ⟨chunksExp N (l.length / N) l, _, hrun, chunksExp_length _ _,
      chunksExp_mem_length _ _ hmul, chunksExp_flatten _ _ hmul, ?_, ?_⟩
    · have hL : N * (l.length / N) = l.length := by omega
      rw [hL]
      simp [ConstChunks.into_remainder, remListOpt, List.drop_length]
    · intro r hr
      simp [ConstChunks.into_remainder] at hr
  · rw [if_neg hz] at hrun
    have hplen : (l.drop (N * (l.length / N))).length = l.length % N := by
      rw [List.length_drop]; omega
    rw [← hplen] at hrun
    have hmlt : l.length % N < N := Nat.mod_lt _ hN
    have hple : (l.drop (N * (l.length / N))).length ≤ N := by omega
    obtain ⟨hWF, hfv⟩ := ConstChunksRemainder.fresh_WF (N := N) _ hple
    obtain ⟨htl, hdone, hstuck⟩ := ConstChunksRemainder.consume_all _ hWF
    refine ⟨chunksExp N (l.length / N) l, _, hrun, chunksExp_length _ _,
      chunksExp_mem_length _ _ hmul, chunksExp_flatten _ _ hmul, ?_, ?_⟩
    · simp only [ConstChunks.into_remainder, remListOpt]
      rw [htl, hfv]
    · intro r hr
      simp only [ConstChunks.into_remainder, Option.some.injEq] at hr
      subst hr
      exact ⟨by rw [htl, hfv], hstuck⟩

/-- Witness for C2 at the concrete scenario of the spec: input
`[1, 2, 3, 4, 5]`, `N = 2`. -/
theorem chunks_yield_spec_witness :
    0 < 2 ∧
    ∃ (cs : List (List Nat)) (s1 : ConstChunks 2 Nat),
      nextsList (([1, 2, 3, 4, 5] : List Nat).length / 2 + 1)
          (⟨Source.ofList [1, 2, 3, 4, 5], none⟩ : ConstChunks 2 Nat) =
        (cs.map NextResult.chunk ++ [NextResult.end_], s1) ∧
      cs.length = ([1, 2, 3, 4, 5] : List Nat).length / 2 ∧
      (∀ c ∈ cs, c.length = 2) ∧
      cs.flatten = ([1, 2, 3, 4, 5] : List Nat).take
        (2 * (([1, 2, 3, 4, 5] : List Nat).length / 2)) ∧
      remListOpt (ConstChunks.into_remainder s1) =
        ([1, 2, 3, 4, 5] : List Nat).drop
          (2 * (([1, 2, 3, 4, 5] : List Nat).length / 2)) ∧
      ∀ r, ConstChunks.into_remainder s1 = some r →
        r.remToList = ([1, 2, 3, 4, 5] : List Nat).drop
          (2 * (([1, 2, 3, 4, 5] : List Nat).length / 2)) ∧
        ∀ k, ConstChunksRemainder.consume k
            (ConstChunksRemainder.consume (r.init_stop - r.init_start) r).2 =
          ([], (ConstChunksRemainder.consume (r.init_stop - r.init_start) r).2) :=
  ⟨by decide, chunks_yield_spec [1, 2, 3, 4, 5] (by decide)⟩

/-- Claim C3: round-trip law: concatenating the elements of all chunks the
producer yields, in order, followed by the elements the claimed leftover
yields, in order, reproduces the original input exactly. -/
theorem chunks_roundtrip {N : Nat} (l : List T) (hN : 0 < N) :
    (resultsChunks
        (nextsList (l.length / N + 1)
          (⟨Source.ofList l, none⟩ : ConstChunks N T)).1).flatten ++
      remListOpt (ConstChunks.into_remainder
        (nextsList (l.length / N + 1)
          (⟨Source.ofList l, none⟩ : ConstChunks N T)).2) = l := by
  obtain ⟨cs, s1, hrun, _, _, hflat, hrem, _⟩ := chunks_yield_spec (N := N) l hN
  rw [hrun]
  simp only
  rw [resultsChunks_chunks_append_end, hflat, hrem, List.take_append_drop]

/-- Witness for C3 at input `[1, 2, 3, 4, 5]`, `N = 2`. -/
theorem chunks_roundtrip_witness :
    0 < 2 ∧
    (resultsChunks
        (nextsList (([1, 2, 3, 4, 5] : List Nat).length / 2 + 1)
          (⟨Source.ofList [1, 2, 3, 4, 5], none⟩ : ConstChunks 2 Nat)).1).flatten ++
      remListOpt (ConstChunks.into_remainder
        (nextsList (([1, 2, 3, 4, 5] : List Nat).length / 2 + 1)
          (⟨Source.ofList [1, 2, 3, 4, 5], none⟩ : ConstChunks 2 Nat)).2) =
      [1, 2, 3, 4, 5] :=
  ⟨by decide, chunks_roundtrip [1, 2, 3, 4, 5] (by decide)⟩

/-- Claim C4, counterexample: the claim is false on the code: with input
`[1, 2]` and `N = 2` (an exact multiple), the producer yields the chunk
`[1, 2]`, then reports `None` — and `into_remainder` returns `None`, not a
non-`None` empty leftover.  The early return in `ConstChunks::next` on an
exhausted source never touches `self.remainder`, so no empty leftover is ever
recorded on a chunk boundary. -/
theorem exact_multiple_remainder_counterexample :
    (ConstChunks.next (⟨Source.ofList [1, 2], none⟩ : ConstChunks 2 Nat)).1 =
      NextResult.chunk [1, 2] ∧
    (ConstChunks.next
        (ConstChunks.next (⟨Source.ofList [1, 2], none⟩ :
          ConstChunks 2 Nat)).2).1 = NextResult.end_ ∧
    ConstChunks.into_remainder
        (ConstChunks.next
          (ConstChunks.next (⟨Source.ofList [1, 2], none⟩ :
            ConstChunks 2 Nat)).2).2 = none := by
  exact ⟨rfl, rfl, rfl⟩

/-- Claim C4, amended: if the input length `L` is an exact multiple of `N`
(including `L = 0`), then after the producer reports `None`, `into_remainder`
returns `None`: no leftover (not even an empty one) is stored when the source
is exhausted exactly on a chunk boundary. -/
theorem exact_multiple_remainder_none {N : Nat} (l : List T) (hN : 0 < N)
    (hz : l.length % N = 0) :
    (nextsList (l.length / N + 1)
        (⟨Source.ofList l, none⟩ : ConstChunks N T)).1.getLast? =
      some NextResult.end_ ∧
    ConstChunks.into_remainder
        (nextsList (l.length / N + 1)
          (⟨Source.ofList l, none⟩ : ConstChunks N T)).2 = none := by
  have hrun := run_spec hN l 0
  rw [if_pos hz] at hrun
  simp only [Source.ofList]
  rw [hrun]
  exact ⟨List.getLast?_concat _, rfl⟩

/-- Witness for the amended C4 at input `[1, 2, 3, 4]`, `N = 4` (the spec's
own concrete scenario) and also covering `L = 0` through the hypotheses. -/
theorem exact_multiple_remainder_none_witness :
    0 < 4 ∧ ([1, 2, 3, 4] : List Nat).length % 4 = 0 ∧
    ((nextsList (([1, 2, 3, 4] : List Nat).length / 4 + 1)
        (⟨Source.ofList [1, 2, 3, 4], none⟩ : ConstChunks 4 Nat)).1.getLast? =
      some NextResult.end_ ∧
    ConstChunks.into_remainder
        (nextsList (([1, 2, 3, 4] : List Nat).length / 4 + 1)
          (⟨Source.ofList [1, 2, 3, 4], none⟩ : ConstChunks 4 Nat)).2 = none) :=
  ⟨by decide, by decide, exact_multiple_remainder_none [1, 2, 3, 4] (by decide) (by decide)⟩

/-- Claim C5, counterexample: the claim is false on the code: the producer has
no exhausted flag and pulls the source on every call.  With `N = 2` and a
non-fused source whose pulls produce `1`, `None`, `2`, `3`, the first call
reports `None` after a failed fill attempt (storing the leftover `[1]`), yet
the second call pulls the source twice more (the pull counter goes from 2 to
4) and yields the chunk `[2, 3]` instead of reporting `None`. -/
theorem exhausted_next_pulls_again_counterexample :
    (ConstChunks.next
        (⟨⟨[PullResult.yield 1, PullResult.exhausted, PullResult.yield 2,
            PullResult.yield 3], 0⟩, none⟩ : ConstChunks 2 Nat)).1 =
      NextResult.end_ ∧
    (ConstChunks.next
        (⟨⟨[PullResult.yield 1, PullResult.exhausted, PullResult.yield 2,
            PullResult.yield 3], 0⟩, none⟩ : ConstChunks 2 Nat)).2.inner.pulls = 2 ∧
    (ConstChunks.next
        (ConstChunks.next
          (⟨⟨[PullResult.yield 1, PullResult.exhausted, PullResult.yield 2,
              PullResult.yield 3], 0⟩, none⟩ : ConstChunks 2 Nat)).2).1 =
      NextResult.chunk [2, 3] ∧
    (ConstChunks.next
        (ConstChunks.next
          (⟨⟨[PullResult.yield 1, PullResult.exhausted, PullResult.yield 2,
              PullResult.yield 3], 0⟩, none⟩ : ConstChunks 2 Nat)).2).2.inner.pulls = 4 := by
  exact ⟨rfl, rfl, rfl, rfl⟩

/-- Claim C5, amended: the producer is not fused and pulls the source again on
every call.  What holds is: once the source yields nothing on every future
pull (empty script), every subsequent call to `next()` reports `None`, leaves
the stored leftover unchanged, and changes nothing observable besides pulling
the already-exhausted source once more per call. -/
theorem exhausted_empty_script_end_forever {N : Nat} (s : ConstChunks N T)
    (h : s.inner.script = []) (k : Nat) :
    (nextsList k s).1 = List.replicate k NextResult.end_ ∧
    (nextsList k s).2.remainder = s.remainder ∧
    (nextsList k s).2.inner.script = [] ∧
    (nextsList k s).2.inner.pulls = s.inner.pulls + k := by
  induction k generalizing s with
  | zero => exact ⟨rfl, rfl, h, rfl⟩
  | succ n ih =>
    obtain ⟨⟨script, p⟩, rem⟩ := s
    simp only at h
    subst h
    simp only [nextsList, next_empty]
    have hih := ih (⟨⟨[], p + 1⟩, rem⟩ : ConstChunks N T) rfl
    refine ⟨?_, hih.2.1, hih.2.2.1, ?_⟩
    · rw [hih.1, List.replicate_succ]
    · rw [hih.2.2.2]
      simp only
      omega

/-- Witness for the amended C5: a producer with leftover `[9]` and an empty
script reports `None` on three further calls, keeping the leftover and adding
one pull per call. -/
theorem exhausted_empty_script_end_forever_witness :
    ((⟨⟨[], 6⟩, some ⟨[some 9, none], 0, 1⟩⟩ :
        ConstChunks 2 Nat).inner.script = [] ∧
      (nextsList 3 (⟨⟨[], 6⟩, some ⟨[some 9, none], 0, 1⟩⟩ :
          ConstChunks 2 Nat)).1 = List.replicate 3 NextResult.end_ ∧
      (nextsList 3 (⟨⟨[], 6⟩, some ⟨[some 9, none], 0, 1⟩⟩ :
          ConstChunks 2 Nat)).2.remainder = some ⟨[some 9, none], 0, 1⟩ ∧
      (nextsList 3 (⟨⟨[], 6⟩, some ⟨[some 9, none], 0, 1⟩⟩ :
          ConstChunks 2 Nat)).2.inner.script = [] ∧
      (nextsList 3 (⟨⟨[], 6⟩, some ⟨[some 9, none], 0, 1⟩⟩ :
          ConstChunks 2 Nat)).2.inner.pulls = 6 + 3) :=
  ⟨rfl, exhausted_empty_script_end_forever _ rfl 3⟩

/-- Claim C6: whenever a leftover is destroyed — after `k` calls to `next()`
for any `k`, i.e. with no consumption, partial consumption, or full
consumption — its `Drop` impl destroys exactly the elements still inside the
current filled range `[init_start, init_stop)`, each exactly once: the items
already yielded followed by the destroyed values are exactly the originally
held values (so nothing leaks and nothing is destroyed twice), and every slot
the destructor touches is an initialized one. -/
theorem remainder_drop_destroys_exactly_filled {N : Nat}
    (r : ConstChunksRemainder N T) (hWF : r.WF) (k : Nat) :
    (ConstChunksRemainder.consume k r).1 ++
        ConstChunksRemainder.dropDestroyed (ConstChunksRemainder.consume k r).2 =
      ConstChunksRemainder.filledValues r ∧
    ConstChunksRemainder.dropDestroyed (ConstChunksRemainder.consume k r).2 =
      ConstChunksRemainder.filledValues (ConstChunksRemainder.consume k r).2 ∧
    ∀ o ∈ (ConstChunksRemainder.consume k r).2.initSlice, o.isSome = true := by
  have h := ConstChunksRemainder.consume_master k r hWF
  refine ⟨?_, rfl, h.2.1.2.2.2⟩
  rw [h.1]
  have hdd : ConstChunksRemainder.dropDestroyed (ConstChunksRemainder.consume k r).2 =
      ConstChunksRemainder.filledValues (ConstChunksRemainder.consume k r).2 := rfl
  rw [hdd, h.2.2.1, List.take_append_drop]

/-- Witness for C6: the leftover holding `[5, 6]` destroyed after consuming
one element destroys exactly `[6]`. -/
theorem remainder_drop_destroys_exactly_filled_witness :
    ConstChunksRemainder.WF (⟨[some 5, some 6, none], 0, 2⟩ :
        ConstChunksRemainder 3 Nat) ∧
    ((ConstChunksRemainder.consume 1 (⟨[some 5, some 6, none], 0, 2⟩ :
          ConstChunksRemainder 3 Nat)).1 ++
        ConstChunksRemainder.dropDestroyed
          (ConstChunksRemainder.consume 1 (⟨[some 5, some 6, none], 0, 2⟩ :
            ConstChunksRemainder 3 Nat)).2 =
      ConstChunksRemainder.filledValues (⟨[some 5, some 6, none], 0, 2⟩ :
        ConstChunksRemainder 3 Nat) ∧
    ConstChunksRemainder.dropDestroyed
        (ConstChunksRemainder.consume 1 (⟨[some 5, some 6, none], 0, 2⟩ :
          ConstChunksRemainder 3 Nat)).2 =
      ConstChunksRemainder.filledValues
        (ConstChunksRemainder.consume 1 (⟨[some 5, some 6, none], 0, 2⟩ :
          ConstChunksRemainder 3 Nat)).2 ∧
    ∀ o ∈ (ConstChunksRemainder.consume 1 (⟨[some 5, some 6, none], 0, 2⟩ :
        ConstChunksRemainder 3 Nat)).2.initSlice, o.isSome = true) :=
  ⟨⟨rfl, by decide, by decide, by decide⟩,
    remainder_drop_destroys_exactly_filled
      (⟨[some 5, some 6, none], 0, 2⟩ : ConstChunksRemainder 3 Nat)
      ⟨rfl, by decide, by decide, by decide⟩ 1⟩

/-- Claim C7: the leftover's `next()`: when the filled range
`[init_start, init_stop)` is non-empty it moves out the element at
`init_start` (the slot is overwritten with an uninitialized value, leaving no
live value behind), advances `init_start` by one, and returns that element;
when the range is empty it returns `None`, and from the moment
`init_start = init_stop` every subsequent call returns `None` forever with the
state unchanged (one-shot, forward-only, non-restartable). -/
theorem remainder_next_spec {N : Nat} (r : ConstChunksRemainder N T)
    (hWF : r.WF) :
    (r.init_start < r.init_stop →
      ∃ v, r.remainder_chunk.getD r.init_start none = some v ∧
        ConstChunksRemainder.next r =
          (some v, ⟨r.remainder_chunk.set r.init_start none,
            r.init_start + 1, r.init_stop⟩)) ∧
    (¬ r.init_start < r.init_stop →
      ConstChunksRemainder.next r = (none, r) ∧
      ∀ k, ConstChunksRemainder.consume k r = ([], r)) := by
  constructor
  · intro h
    obtain ⟨v, hv, hnext, _, _⟩ := ConstChunksRemainder.next_step r hWF h
    exact ⟨v, hv, hnext⟩
  · intro h
    exact ⟨ConstChunksRemainder.next_stuck r h,
      ConstChunksRemainder.consume_stuck r h⟩

/-- Witness for C7: the leftover holding `[5]` yields `5` once (emptying the
slot) and, once emptied, yields `None` forever. -/
theorem remainder_next_spec_witness :
    ConstChunksRemainder.WF (⟨[some 5, none], 0, 1⟩ :
        ConstChunksRemainder 2 Nat) ∧
    ((0 < 1 →
      ∃ v, ([some 5, none] : List (Option Nat)).getD 0 none = some v ∧
        ConstChunksRemainder.next (⟨[some 5, none], 0, 1⟩ :
            ConstChunksRemainder 2 Nat) =
          (some v, ⟨([some 5, none] : List (Option Nat)).set 0 none, 0 + 1, 1⟩)) ∧
    (¬ 0 < 1 →
      ConstChunksRemainder.next (⟨[some 5, none], 0, 1⟩ :
          ConstChunksRemainder 2 Nat) =
        (none, ⟨[some 5, none], 0, 1⟩) ∧
      ∀ k, ConstChunksRemainder.consume k (⟨[some 5, none], 0, 1⟩ :
          ConstChunksRemainder 2 Nat) = ([], ⟨[some 5, none], 0, 1⟩))) :=
  ⟨⟨rfl, by decide, by decide, by decide⟩,
    remainder_next_spec (⟨[some 5, none], 0, 1⟩ : ConstChunksRemainder 2 Nat)
      ⟨rfl, by decide, by decide, by decide⟩⟩

/-- Claim C9: the producer's size bounds are the source's remaining-length
bounds divided by `N`, rounding down: `size_hint` maps the source's
`(lower, Some upper)` to `(lower / N, Some (upper / N))`, and `len` maps an
exact source length to that length divided by `N`; moreover for a truthful
exact source of length `L` this reported count equals the number of chunks
the producer actually yields. -/
theorem size_hint_spec {N : Nat} (l : List T) (hN : 0 < N) :
    ConstChunks.size_hint N l.length (some l.length) =
      (l.length / N, some (l.length / N)) ∧
    ConstChunks.len N l.length = l.length / N ∧
    (resultsChunks
        (nextsList (l.length / N + 1)
          (⟨Source.ofList l, none⟩ : ConstChunks N T)).1).length =
      ConstChunks.len N l.length := by
  refine ⟨rfl, rfl, ?_⟩
  obtain ⟨cs, s1, hrun, hlen, _, _, _, _⟩ := chunks_yield_spec (N := N) l hN
  rw [hrun]
  simp only
  rw [resultsChunks_chunks_append_end, hlen]
  rfl

/-- Witness for C9 at input `[1, 2, 3, 4, 5]`, `N = 2`. -/
theorem size_hint_spec_witness :
    0 < 2 ∧
    (ConstChunks.size_hint 2 ([1, 2, 3, 4, 5] : List Nat).length
        (some ([1, 2, 3, 4, 5] : List Nat).length) =
      (([1, 2, 3, 4, 5] : List Nat).length / 2,
        some (([1, 2, 3, 4, 5] : List Nat).length / 2)) ∧
    ConstChunks.len 2 ([1, 2, 3, 4, 5] : List Nat).length =
      ([1, 2, 3, 4, 5] : List Nat).length / 2 ∧
    (resultsChunks
        (nextsList (([1, 2, 3, 4, 5] : List Nat).length / 2 + 1)
          (⟨Source.ofList [1, 2, 3, 4, 5], none⟩ : ConstChunks 2 Nat)).1).length =
      ConstChunks.len 2 ([1, 2, 3, 4, 5] : List Nat).length) :=
  ⟨by decide, size_hint_spec [1, 2, 3, 4, 5] (by decide)⟩
